import Mathlib

/-!
Verification of the wireless-redstone calculator
(`wireless-redstone-calculator.py`).

The program reads input lines, parses each into a chain of elements via
the regex `^(R[0-3]]|C)` (note the literal `]` in the pattern as written
in the source), and drives a discrete-event loop over a dict mapping
ticks to queues of `(line_name, tail)` updates.  We embed the program
shallowly: the dict becomes an insertion-ordered association list, the
while-loop becomes a fuel-indexed recursion (with a proof that the fuel
chosen in `run` is always sufficient), stderr becomes a list of `Diag`
events, and the `min()`-on-empty-dict `ValueError` becomes an explicit
`crash` outcome.
-/

namespace WirelessRedstone

/-- A pending update: `(line_name, tail)` as in the Python tuple. -/
abbrev Update := Char × List Char

/-- The tick map: insertion-ordered association list from tick to queue,
mirroring a Python dict's insertion-order semantics. -/
abbrev TickMap := List (Nat × List Update)

/-- Embedding of `RE_ELEMENT.match(tail)`: the regex is `^(R[0-3]]|C)` — the first
alternative is the four characters `R`, a digit `0`-`3`, and a literal
`]`; the second is the single character `C`.  Returns the matched group. -/
def matchElement : List Char → Option (List Char)
  | [] => none
  | [c] => if c = 'C' then some ['C'] else none
  | [c, _] => if c = 'C' then some ['C'] else none
  | c :: d :: b :: _ =>
    if c = 'R' ∧ ('0' ≤ d ∧ d ≤ '3') ∧ b = ']' then some ['R', d, ']']
    else if c = 'C' then some ['C'] else none

/-- Stderr events emitted by the program. -/
inductive Diag where
  /-- line 69: `Warning: Invalid element in line '{name}' at tick {tick}: {tail}` -/
  | warnInvalidToken (name : Char) (tick : Nat) (tail : List Char)
  /-- line 84: `Warning: Invalid element '{element}' in line '{name}'` -/
  | warnInvalidElement (name : Char) (element : List Char)
  /-- lines 91-92: the final warning and `Final tick map:` header -/
  | warnFinal
  /-- line 94: one `Tick {tick}: {updates}` line of the diagnostic dump -/
  | dumpEntry (tick : Nat) (queue : List Update)
  deriving DecidableEq, Repr

/-- True exactly on the line-84 "Invalid element" warning (the `else`
branch of the element dispatch). -/
def Diag.isInvElem : Diag → Bool
  | .warnInvalidElement _ _ => true
  | _ => false

/-- Result of processing one `(line_name, tail)` update at a tick:
an optional reschedule `(next_tick, update)`, an optional stderr event,
and the contribution to `more_to_process`. -/
structure StepOut where
  sched : Option (Nat × Update)
  diag : Option Diag
  more : Bool
  deriving DecidableEq, Repr

/-- Lines 63-84 of the source, for a single update `u` at tick `t`. -/
def processUpdate (t : Nat) (u : Update) : StepOut :=
  if u.2.isEmpty then ⟨none, none, false⟩
  else
    match matchElement u.2 with
    | none => ⟨none, some (Diag.warnInvalidToken u.1 t u.2), false⟩
    | some e =>
      if e.head? = some 'R' then
        ⟨some (t + (1 + ((e.getD 1 '0').toNat - '0'.toNat)) * 2, (u.1, u.2.drop e.length)),
          none, !(u.2.drop e.length).isEmpty⟩
      else if e.head? = some 'C' then
        ⟨some (t + 2, (u.1, u.2.drop e.length)), none, !(u.2.drop e.length).isEmpty⟩
      else
        ⟨none, some (Diag.warnInvalidElement u.1 e), !(u.2.drop e.length).isEmpty⟩

/-- Embedding of the `tick_map.get(k, [])` / `tick_map[k]` lookup. -/
def findQ : TickMap → Nat → List Update
  | [], _ => []
  | (k', q) :: rest, k => if k' = k then q else findQ rest k

/-- Embedding of `tick_map.setdefault(k, []).append(u)`: append `u` to the queue at
`k`, creating the key at the end of the dict if absent. -/
def setdefaultAppend : TickMap → Nat → Update → TickMap
  | [], k, u => [(k, [u])]
  | (k', q) :: rest, k, u =>
    if k' = k then (k', q ++ [u]) :: rest
    else (k', q) :: setdefaultAppend rest k u

/-- Key removal, as done by `tick_map.pop(k)`. -/
def eraseAll : TickMap → Nat → TickMap
  | [], _ => []
  | (k', q) :: rest, k =>
    if k' = k then eraseAll rest k else (k', q) :: eraseAll rest k

/-- The list of tick keys. -/
def keysOf (m : TickMap) : List Nat := m.map Prod.fst

/-- Embedding of `min(tick_map.keys())`; `none` when the dict is empty. -/
def minKey : TickMap → Option Nat
  | [] => none
  | (k, _) :: rest =>
    some (match minKey rest with
          | none => k
          | some k' => min k k')

/-- Embedding of `max(tick_map.keys())`; `none` when the dict is empty. -/
def maxKey : TickMap → Option Nat
  | [] => none
  | (k, _) :: rest =>
    some (match maxKey rest with
          | none => k
          | some k' => max k k')

/-- Result of one pass over a popped queue: the new tick map, the stderr
events in emission order, and the `more_to_process` flag. -/
structure QOut where
  map : TickMap
  ds : List Diag
  more : Bool
  deriving DecidableEq, Repr

/-- The `for line_name, tail in updates:` body, threading the tick map
left to right through the popped queue. -/
def runQueue (t : Nat) : List Update → TickMap → QOut
  | [], m => ⟨m, [], false⟩
  | u :: rest, m =>
    let o := processUpdate t u
    let m1 := match o.sched with
              | some ku => setdefaultAppend m ku.1 ku.2
              | none => m
    let r := runQueue t rest m1
    ⟨r.map, o.diag.toList ++ r.ds, o.more || r.more⟩

/-- Outcome of the while-loop: normal exit with the surviving tick map,
the `ValueError` crash from `min()` on an empty dict, or fuel
exhaustion (shown unreachable for the fuel `run` supplies). -/
inductive LoopOut where
  | ok (m : TickMap) (ds : List Diag)
  | crash (ds : List Diag)
  | fuelOut (ds : List Diag)
  deriving DecidableEq, Repr

/-- The `while more_to_process:` loop (lines 57-84), as a fuel-indexed
recursion.  Each iteration pops the minimum tick and processes its
queue; the body runs at least once because `more_to_process` starts
`True`. -/
def loop : Nat → TickMap → LoopOut
  | 0, _ => .fuelOut []
  | fuel + 1, m =>
    match minKey m with
    | none => .crash []
    | some t =>
      let r := runQueue t (findQ m t) (eraseAll m t)
      if r.more then
        match loop fuel r.map with
        | .ok m2 ds2 => .ok m2 (r.ds ++ ds2)
        | .crash ds2 => .crash (r.ds ++ ds2)
        | .fuelOut ds2 => .fuelOut (r.ds ++ ds2)
      else .ok r.map r.ds

/-- The stderr events carried by a loop outcome. -/
def LoopOut.dsL : LoopOut → List Diag
  | .ok _ ds => ds
  | .crash ds => ds
  | .fuelOut ds => ds

/-- Whether a loop outcome is fuel exhaustion. -/
def LoopOut.isFuelOutL : LoopOut → Bool
  | .fuelOut _ => true
  | _ => false

/-- Whether a loop outcome is the `ValueError` crash. -/
def LoopOut.isCrashL : LoopOut → Bool
  | .crash _ => true
  | _ => false

/-- Total character count of the tails in a queue. -/
def qLen (q : List Update) : Nat := (q.map (fun u => u.2.length)).sum

/-- Total character count of the tails in the whole tick map: the
termination measure of the loop. -/
def mapLen (m : TickMap) : Nat := (m.map (fun e => qLen e.2)).sum

/-- Fuel sufficient for the loop to drain (proved below). -/
def fuelFor (m : TickMap) : Nat := mapLen m + 1

/-- Insert an entry into an entry list sorted by tick key. -/
def insertSorted (e : Nat × List Update) : List (Nat × List Update) → List (Nat × List Update)
  | [] => [e]
  | f :: rest => if e.1 ≤ f.1 then e :: f :: rest else f :: insertSorted e rest

/-- Embedding of `sorted(tick_map.items())` (keys are unique, so sorting by key). -/
def sortEntries (m : TickMap) : TickMap := m.foldr insertSorted []

/-- The diagnostic dump: one line per surviving tick, ascending. -/
def dumpOf (m : TickMap) : List Diag :=
  (sortEntries m).map (fun e => Diag.dumpEntry e.1 e.2)

/-- Embedding of the comma join of the output order, over single-character line names. -/
def joinNames : List Char → List Char
  | [] => []
  | [c] => [c]
  | c :: rest => c :: ',' :: joinNames rest

/-- Lines 86-98: the terminal accounting.  Returns the primary-channel
output (if any) and the stderr events. -/
def finalize (n : Nat) (m : TickMap) : Option (List Char) × List Diag :=
  let ft := (maxKey m).getD 0
  let fu := findQ m ft
  if fu.length != n || fu.any (fun u => !u.2.isEmpty) then
    (none, Diag.warnFinal :: dumpOf m)
  else
    (some (joinNames (fu.map Prod.fst)), [])

/-- Python `str.strip()` on a character list. -/
def stripChars (l : List Char) : List Char :=
  ((l.dropWhile Char.isWhitespace).reverse.dropWhile Char.isWhitespace).reverse

/-- Embedding of `zip(line_names, lines)` with `line_names[i] = chr(ord('A') + i)`. -/
def withNames (ls : List (List Char)) : List Update :=
  ((List.range ls.length).zip ls).map (fun p => (Char.ofNat ('A'.toNat + p.1), p.2))

/-- Lines 50-54: seed the tick map with every line's full tail at tick 0. -/
def initMap (ups : List Update) : TickMap :=
  ups.foldl (fun m u => setdefaultAppend m 0 u) []

/-- Overall outcome of one program run: `ok primary stderr finalMap`
(primary is `some` joined-names on the success path, `none` on the
malformed path), or the uncaught `ValueError`, or fuel exhaustion. -/
inductive RunResult where
  | ok (primary : Option (List Char)) (ds : List Diag) (finalMap : TickMap)
  | crash (ds : List Diag)
  | fuelOut (ds : List Diag)
  deriving DecidableEq, Repr

/-- Embedding of `[line.strip() for line in sys.stdin if line.strip()]`. -/
def linesOf (input : List (List Char)) : List (List Char) :=
  (input.map stripChars).filter (fun l => !l.isEmpty)

/-- The seeded tick map for a given input. -/
def m0Of (input : List (List Char)) : TickMap :=
  initMap (withNames (linesOf input))

/-- The whole `__main__` block: strip and drop blank lines, assign
names, seed tick 0, run the loop, then do the final accounting. -/
def run (input : List (List Char)) : RunResult :=
  match loop (fuelFor (m0Of input)) (m0Of input) with
  | .ok m ds =>
    let p := finalize (linesOf input).length m
    .ok p.1 (ds ++ p.2) m
  | .crash ds => .crash ds
  | .fuelOut ds => .fuelOut ds

/-- The stderr stream of a run outcome. -/
def diagsOf : RunResult → List Diag
  | .ok _ ds _ => ds
  | .crash ds => ds
  | .fuelOut ds => ds

/-- Whether the run aborted by fuel exhaustion (never, see `c6`). -/
def RunResult.isFuelOut : RunResult → Bool
  | .fuelOut _ => true
  | _ => false

/-- Whether the run completed the loop and the final accounting. -/
def RunResult.isOk : RunResult → Bool
  | .ok _ _ _ => true
  | _ => false

/-- Number of non-blank input lines (`len(line_names)`). -/
def numLines (input : List (List Char)) : Nat := (linesOf input).length

/-- One loop iteration's effect on the tick map, given the current
(minimum) tick `t`. -/
def stepMap (m : TickMap) (t : Nat) : TickMap :=
  (runQueue t (findQ m t) (eraseAll m t)).map

/-- The updates of queue `q`, processed at tick `t`, that get
rescheduled to tick `k`, in queue order. -/
def reschedTo (t k : Nat) (q : List Update) : List Update :=
  q.filterMap (fun u =>
    match (processUpdate t u).sched with
    | some kv => if kv.1 = k then some kv.2 else none
    | none => none)

/-- Advancement contributed by a matched element, mirroring the
dispatch: `(1+delay)*2` for a repeater match, else 2. -/
def advOf (e : List Char) : Nat :=
  if e.head? = some 'R' then (1 + ((e.getD 1 '0').toNat - '0'.toNat)) * 2 else 2

/-- One line simulated on its own: starting at tick `t`, repeatedly
match an element off the front and add its advancement; `some` final
tick when the tail reaches empty, `none` if a token fails to match. -/
def simLine : Nat → List Char → Nat → Option Nat
  | 0, _, _ => none
  | fuel + 1, l, t =>
    if l.isEmpty then some t
    else
      match matchElement l with
      | none => none
      | some e => simLine fuel (l.drop e.length) (t + advOf e)

/-- The tick at which a line, simulated independently from tick 0,
reaches an empty remainder (`none` if it never does). -/
def simTick (l : List Char) : Option Nat := simLine (l.length + 1) l 0

/-! ### Characterizing the element recognizer and single-update processing -/

/-- A successful regex match is either the three-character repeater
alternative `R`, digit `0`-`3`, `]`, or the single character `C`. -/
theorem matchElement_some {l e : List Char} (h : matchElement l = some e) :
    (∃ d rest, l = 'R' :: d :: ']' :: rest ∧ '0' ≤ d ∧ d ≤ '3' ∧ e = ['R', d, ']']) ∨
    (∃ rest, l = 'C' :: rest ∧ e = ['C']) := by
  match l with
  | [] => simp [matchElement] at h
  | [c] =>
    simp only [matchElement] at h
    split_ifs at h with hc
    cases h; exact Or.inr ⟨[], by rw [hc], rfl⟩
  | [c, d] =>
    simp only [matchElement] at h
    split_ifs at h with hc
    cases h; exact Or.inr ⟨[d], by rw [hc], rfl⟩
  | c :: d :: b :: rest =>
    simp only [matchElement] at h
    split_ifs at h with h1 h2
    · obtain ⟨hc, hd, hb⟩ := h1
      cases h
      exact Or.inl ⟨d, rest, by rw [hc, hb], hd.1, hd.2, rfl⟩
    · cases h; exact Or.inr ⟨d :: b :: rest, by rw [h2], rfl⟩

/-- Exhaustive description of `processUpdate`: the drop-empty branch,
the invalid-token branch, the repeater branch, the comparator branch. -/
theorem processUpdate_spec (t : Nat) (u : Update) :
    (u.2 = [] ∧ processUpdate t u = ⟨none, none, false⟩) ∨
    (u.2 ≠ [] ∧ matchElement u.2 = none ∧
      processUpdate t u = ⟨none, some (Diag.warnInvalidToken u.1 t u.2), false⟩) ∨
    (∃ d rest, u.2 = 'R' :: d :: ']' :: rest ∧ '0' ≤ d ∧ d ≤ '3' ∧
      processUpdate t u =
        ⟨some (t + (1 + (d.toNat - '0'.toNat)) * 2, (u.1, rest)), none, !rest.isEmpty⟩) ∨
    (∃ rest, u.2 = 'C' :: rest ∧
      processUpdate t u = ⟨some (t + 2, (u.1, rest)), none, !rest.isEmpty⟩) := by
  obtain ⟨nm, tail⟩ := u
  by_cases hemp : tail = []
  · subst hemp; exact Or.inl ⟨rfl, rfl⟩
  · cases hm : matchElement tail with
    | none =>
      refine Or.inr (Or.inl ⟨hemp, rfl, ?_⟩)
      simp [processUpdate, hm, hemp]
    | some e =>
      rcases matchElement_some hm with ⟨d, rest, hl, hd0, hd3, he⟩ | ⟨rest, hl, he⟩
      · subst he; subst hl
        refine Or.inr (Or.inr (Or.inl ⟨d, rest, rfl, hd0, hd3, ?_⟩))
        simp [processUpdate, hm]
      · subst he; subst hl
        refine Or.inr (Or.inr (Or.inr ⟨rest, rfl, ?_⟩))
        simp [processUpdate, hm]

/-- Every reschedule lands at the current tick plus 2, 4, 6 or 8: the
advancement is `(1+delay)*2` with delay in 0..3, or 2 for a comparator. -/
theorem sched_key_adv {t : Nat} {u : Update} {kv : Nat × Update}
    (h : (processUpdate t u).sched = some kv) :
    kv.1 = t + 2 ∨ kv.1 = t + 4 ∨ kv.1 = t + 6 ∨ kv.1 = t + 8 := by
  rcases processUpdate_spec t u with ⟨_, hp⟩ | ⟨_, _, hp⟩ | ⟨d, rest, _, hd0, hd3, hp⟩ |
    ⟨rest, _, hp⟩ <;> rw [hp] at h
  · cases h
  · cases h
  · have h48 : 48 ≤ d.toNat := hd0
    have h51 : d.toNat ≤ 51 := hd3
    cases h
    have : ('0' : Char).toNat = 48 := rfl
    rw [this]
    omega
  · cases h; exact Or.inl rfl

/-- A rescheduled update's tail is strictly shorter than the processed
update's tail. -/
theorem sched_tail_lt {t : Nat} {u : Update} {kv : Nat × Update}
    (h : (processUpdate t u).sched = some kv) :
    kv.2.2.length + 1 ≤ u.2.length := by
  rcases processUpdate_spec t u with ⟨_, hp⟩ | ⟨_, _, hp⟩ | ⟨d, rest, hl, _, _, hp⟩ |
    ⟨rest, hl, hp⟩ <;> rw [hp] at h
  · cases h
  · cases h
  · cases h; rw [hl]; simp
  · cases h; rw [hl]; simp

/-- When processing an update sets `more_to_process`, the update was
rescheduled (the invalid-element `else` branch being unreachable). -/
theorem more_imp_sched {t : Nat} {u : Update}
    (h : (processUpdate t u).more = true) :
    ∃ kv, (processUpdate t u).sched = some kv := by
  rcases processUpdate_spec t u with ⟨_, hp⟩ | ⟨_, _, hp⟩ | ⟨d, rest, _, _, _, hp⟩ |
    ⟨rest, _, hp⟩ <;> rw [hp] at h ⊢
  · cases h
  · cases h
  · exact ⟨_, rfl⟩
  · exact ⟨_, rfl⟩

/-- The function `processUpdate` never emits the line-84 "Invalid element" warning. -/
theorem processUpdate_diag_ok {t : Nat} {u : Update} {d : Diag}
    (h : (processUpdate t u).diag = some d) : d.isInvElem = false := by
  rcases processUpdate_spec t u with ⟨_, hp⟩ | ⟨_, _, hp⟩ | ⟨d', rest, _, _, _, hp⟩ |
    ⟨rest, _, hp⟩ <;> rw [hp] at h
  · cases h
  · cases h; rfl
  · cases h
  · cases h

/-! ### Tick-map operation lemmas -/

/-- The operation `setdefaultAppend` never produces an empty dict. -/
theorem sd_ne_nil (m : TickMap) (k : Nat) (u : Update) :
    setdefaultAppend m k u ≠ [] := by
  cases m with
  | nil => simp [setdefaultAppend]
  | cons e rest =>
    obtain ⟨k', q⟩ := e
    by_cases hk : k' = k <;> simp [setdefaultAppend, hk]

/-- Appending at key `k` extends the queue at `k` by one element. -/
theorem findQ_sd_same (m : TickMap) (k : Nat) (u : Update) :
    findQ (setdefaultAppend m k u) k = findQ m k ++ [u] := by
  induction m with
  | nil => simp [setdefaultAppend, findQ]
  | cons e rest ih =>
    obtain ⟨k', q⟩ := e
    by_cases hk : k' = k
    · subst hk; simp [setdefaultAppend, findQ]
    · simp [setdefaultAppend, findQ, hk, ih]

/-- Appending at key `k'` leaves every other queue unchanged. -/
theorem findQ_sd_ne (m : TickMap) {k' k : Nat} (u : Update) (hne : k' ≠ k) :
    findQ (setdefaultAppend m k' u) k = findQ m k := by
  induction m with
  | nil => simp [setdefaultAppend, findQ, hne]
  | cons e rest ih =>
    obtain ⟨k0, q⟩ := e
    by_cases hk : k0 = k'
    · subst hk; simp [setdefaultAppend, findQ, hne]
    · simp [setdefaultAppend, hk]
      by_cases hk2 : k0 = k <;> simp [findQ, hk2, ih]

/-- Unfolding lemma for the key list of a dict entry. -/
theorem keysOf_cons (k : Nat) (q : List Update) (rest : TickMap) :
    keysOf ((k, q) :: rest) = k :: keysOf rest := rfl

/-- Unfolding lemma for the tail-length measure of a dict entry. -/
theorem mapLen_cons (k : Nat) (q : List Update) (rest : TickMap) :
    mapLen ((k, q) :: rest) = qLen q + mapLen rest := by
  simp [mapLen]

/-- Keys after `setdefaultAppend` are the old keys plus possibly `k`. -/
theorem keysOf_sd {m : TickMap} {k : Nat} {u : Update} {j : Nat}
    (h : j ∈ keysOf (setdefaultAppend m k u)) : j ∈ keysOf m ∨ j = k := by
  induction m with
  | nil =>
    simp [setdefaultAppend, keysOf] at h
    exact Or.inr h
  | cons e rest ih =>
    obtain ⟨k', q⟩ := e
    by_cases hk : k' = k
    · subst hk
      have he : setdefaultAppend ((k', q) :: rest) k' u = (k', q ++ [u]) :: rest := by
        simp [setdefaultAppend]
      rw [he, keysOf_cons, List.mem_cons] at h
      rcases h with h | h
      · exact Or.inr h
      · exact Or.inl (List.mem_cons_of_mem _ h)
    · have he : setdefaultAppend ((k', q) :: rest) k u =
          (k', q) :: setdefaultAppend rest k u := by
        simp [setdefaultAppend, hk]
      rw [he, keysOf_cons, List.mem_cons] at h
      rcases h with h | h
      · exact Or.inl (h ▸ List.mem_cons_self _ _)
      · rcases ih h with h' | h'
        · exact Or.inl (List.mem_cons_of_mem _ h')
        · exact Or.inr h'

/-- Tail-length accounting for a queue append. -/
theorem qLen_append (q : List Update) (u : Update) :
    qLen (q ++ [u]) = qLen q + u.2.length := by
  simp [qLen]

/-- Tail-length accounting for `setdefaultAppend`. -/
theorem mapLen_sd (m : TickMap) (k : Nat) (u : Update) :
    mapLen (setdefaultAppend m k u) = mapLen m + u.2.length := by
  induction m with
  | nil => simp [setdefaultAppend, mapLen, qLen]
  | cons e rest ih =>
    obtain ⟨k', q⟩ := e
    by_cases hk : k' = k
    · subst hk; simp [setdefaultAppend, mapLen, qLen_append]; omega
    · simp [setdefaultAppend, hk, mapLen] at ih ⊢; omega

/-- The operation `eraseAll` never increases the total tail length. -/
theorem mapLen_erase_le (m : TickMap) (t : Nat) :
    mapLen (eraseAll m t) ≤ mapLen m := by
  induction m with
  | nil => simp [eraseAll]
  | cons e rest ih =>
    obtain ⟨k', q⟩ := e
    by_cases hk : k' = t
    · rw [eraseAll, if_pos hk, mapLen_cons]; omega
    · rw [eraseAll, if_neg hk, mapLen_cons, mapLen_cons]; omega

/-- Removing the key `t` and keeping its queue never increases the
total tail length. -/
theorem mapLen_erase_find {m : TickMap} {t : Nat} (h : t ∈ keysOf m) :
    mapLen (eraseAll m t) + qLen (findQ m t) ≤ mapLen m := by
  induction m with
  | nil => simp [keysOf] at h
  | cons e rest ih =>
    obtain ⟨k', q⟩ := e
    by_cases hk : k' = t
    · rw [eraseAll, if_pos hk, findQ, if_pos hk, mapLen_cons]
      have := mapLen_erase_le rest t
      omega
    · rw [keysOf_cons, List.mem_cons] at h
      rcases h with h | h
      · exact absurd h.symm hk
      · have := ih h
        rw [eraseAll, if_neg hk, findQ, if_neg hk, mapLen_cons, mapLen_cons]
        omega

/-- Keys surviving `eraseAll` are old keys different from `t`. -/
theorem keysOf_erase {m : TickMap} {t j : Nat}
    (h : j ∈ keysOf (eraseAll m t)) : j ∈ keysOf m ∧ j ≠ t := by
  induction m with
  | nil => simp [eraseAll, keysOf] at h
  | cons e rest ih =>
    obtain ⟨k', q⟩ := e
    by_cases hk : k' = t
    · rw [eraseAll, if_pos hk] at h
      obtain ⟨h1, h2⟩ := ih h
      exact ⟨List.mem_cons_of_mem _ h1, h2⟩
    · rw [eraseAll, if_neg hk, keysOf_cons, List.mem_cons] at h
      rcases h with h | h
      · subst h; exact ⟨List.mem_cons_self _ _, hk⟩
      · obtain ⟨h1, h2⟩ := ih h
        exact ⟨List.mem_cons_of_mem _ h1, h2⟩

/-- The minimum key is a lower bound on all keys. -/
theorem minKey_le {m : TickMap} {t : Nat} (h : minKey m = some t) :
    ∀ k ∈ keysOf m, t ≤ k := by
  induction m generalizing t with
  | nil => simp [keysOf]
  | cons e rest ih =>
    obtain ⟨k', q⟩ := e
    intro k hk
    rw [keysOf_cons, List.mem_cons] at hk
    cases hr : minKey rest with
    | none =>
      have hrest : rest = [] := by
        cases rest with
        | nil => rfl
        | cons f r2 => simp [minKey] at hr
      subst hrest
      simp [minKey] at h
      rcases hk with hk | hk
      · omega
      · simp [keysOf] at hk
    | some t' =>
      simp [minKey, hr] at h
      rcases hk with hk | hk
      · omega
      · have := ih hr k hk
        omega

/-- The minimum key is one of the keys. -/
theorem minKey_mem {m : TickMap} {t : Nat} (h : minKey m = some t) :
    t ∈ keysOf m := by
  induction m generalizing t with
  | nil => simp [minKey] at h
  | cons e rest ih =>
    obtain ⟨k', q⟩ := e
    rw [keysOf_cons]
    cases hr : minKey rest with
    | none =>
      simp [minKey, hr] at h
      exact h ▸ List.mem_cons_self _ _
    | some t' =>
      simp [minKey, hr] at h
      rcases Nat.le_total k' t' with hle | hle
      · have hk : t = k' := by omega
        exact hk ▸ List.mem_cons_self _ _
      · have hk : t = t' := by omega
        exact List.mem_cons_of_mem _ (hk ▸ ih hr)

/-- A non-empty dict has a minimum key. -/
theorem minKey_isSome {m : TickMap} (h : m ≠ []) : ∃ t, minKey m = some t := by
  cases m with
  | nil => exact absurd rfl h
  | cons e rest => exact ⟨_, rfl⟩

/-! ### Queue-processing lemmas -/

/-- Unfolding lemma for a queue step whose update is rescheduled. -/
theorem runQueue_cons_some {t : Nat} {u : Update} {kv : Nat × Update}
    (h : (processUpdate t u).sched = some kv) (rest : List Update) (m : TickMap) :
    runQueue t (u :: rest) m =
      ⟨(runQueue t rest (setdefaultAppend m kv.1 kv.2)).map,
       (processUpdate t u).diag.toList ++ (runQueue t rest (setdefaultAppend m kv.1 kv.2)).ds,
       ((processUpdate t u).more || (runQueue t rest (setdefaultAppend m kv.1 kv.2)).more)⟩ := by
  simp [runQueue, h]

/-- Unfolding lemma for a queue step whose update is dropped. -/
theorem runQueue_cons_none {t : Nat} {u : Update}
    (h : (processUpdate t u).sched = none) (rest : List Update) (m : TickMap) :
    runQueue t (u :: rest) m =
      ⟨(runQueue t rest m).map,
       (processUpdate t u).diag.toList ++ (runQueue t rest m).ds,
       ((processUpdate t u).more || (runQueue t rest m).more)⟩ := by
  simp [runQueue, h]

/-- Unfolding lemma for the tail length of a queue cons. -/
theorem qLen_cons (u : Update) (rest : List Update) :
    qLen (u :: rest) = u.2.length + qLen rest := by
  simp [qLen]

/-- An update that sets `more_to_process` had a non-empty tail. -/
theorem more_imp_len {t : Nat} {u : Update}
    (h : (processUpdate t u).more = true) : 1 ≤ u.2.length := by
  rcases processUpdate_spec t u with ⟨_, hp⟩ | ⟨_, _, hp⟩ | ⟨d, rest, hl, _, _, hp⟩ |
    ⟨rest, hl, hp⟩
  · rw [hp] at h; cases h
  · rw [hp] at h; cases h
  · rw [hl]; simp
  · rw [hl]; simp

/-- Measure accounting for one full pass over a popped queue: the new
total tail length, plus one if `more_to_process` was set, is bounded by
the old total plus the popped queue's tails. -/
theorem rq_measure (t : Nat) (q : List Update) (m : TickMap) :
    mapLen (runQueue t q m).map + (cond (runQueue t q m).more 1 0) ≤
      mapLen m + qLen q := by
  induction q generalizing m with
  | nil => simp [runQueue, qLen]
  | cons u rest ih =>
    rw [qLen_cons]
    cases hs : (processUpdate t u).sched with
    | none =>
      rw [runQueue_cons_none hs]
      have hIH := ih m
      cases ho : (processUpdate t u).more with
      | false => simpa using by omega
      | true =>
        have hlen := more_imp_len ho
        cases hr : (runQueue t rest m).more <;>
          simp_all <;> omega
    | some kv =>
      rw [runQueue_cons_some hs]
      have hIH := ih (setdefaultAppend m kv.1 kv.2)
      rw [mapLen_sd] at hIH
      have hlt := sched_tail_lt hs
      cases ho : (processUpdate t u).more <;>
        cases hr : (runQueue t rest (setdefaultAppend m kv.1 kv.2)).more <;>
        simp_all <;> omega

/-- Processing a queue never empties the dict. -/
theorem rq_map_ne_nil {t : Nat} {q : List Update} {m : TickMap}
    (h : m ≠ []) : (runQueue t q m).map ≠ [] := by
  induction q generalizing m with
  | nil => simpa [runQueue] using h
  | cons u rest ih =>
    cases hs : (processUpdate t u).sched with
    | none => rw [runQueue_cons_none hs]; exact ih h
    | some kv => rw [runQueue_cons_some hs]; exact ih (sd_ne_nil m kv.1 kv.2)

/-- If a pass sets `more_to_process`, the resulting dict is non-empty
(the rescheduled update is in it). -/
theorem rq_more_ne_nil {t : Nat} {q : List Update} {m : TickMap}
    (h : (runQueue t q m).more = true) : (runQueue t q m).map ≠ [] := by
  induction q generalizing m with
  | nil => simp [runQueue] at h
  | cons u rest ih =>
    cases hs : (processUpdate t u).sched with
    | none =>
      rw [runQueue_cons_none hs] at h ⊢
      simp only [Bool.or_eq_true] at h
      rcases h with h | h
      · obtain ⟨kv, hkv⟩ := more_imp_sched h
        rw [hkv] at hs; cases hs
      · exact ih h
    | some kv =>
      rw [runQueue_cons_some hs]
      exact rq_map_ne_nil (sd_ne_nil m kv.1 kv.2)

/-- Keys after a pass are old keys or `t + adv` with `adv ∈ {2,4,6,8}`. -/
theorem rq_keys {t : Nat} {q : List Update} {m : TickMap} {j : Nat}
    (h : j ∈ keysOf (runQueue t q m).map) :
    j ∈ keysOf m ∨ j = t + 2 ∨ j = t + 4 ∨ j = t + 6 ∨ j = t + 8 := by
  induction q generalizing m with
  | nil => exact Or.inl (by simpa [runQueue] using h)
  | cons u rest ih =>
    cases hs : (processUpdate t u).sched with
    | none =>
      rw [runQueue_cons_none hs] at h
      exact ih h
    | some kv =>
      rw [runQueue_cons_some hs] at h
      rcases ih h with h' | h'
      · rcases keysOf_sd h' with h'' | h''
        · exact Or.inl h''
        · rcases sched_key_adv hs with ha | ha | ha | ha <;>
            rw [ha] at h'' <;> tauto
      · exact Or.inr h'

/-- The queue stored at key `k` after a pass is the old queue extended,
in processed order, by exactly the updates rescheduled to `k`. -/
theorem rq_findQ (t : Nat) (q : List Update) (m : TickMap) (k : Nat) :
    findQ (runQueue t q m).map k = findQ m k ++ reschedTo t k q := by
  induction q generalizing m with
  | nil => simp [runQueue, reschedTo]
  | cons u rest ih =>
    cases hs : (processUpdate t u).sched with
    | none =>
      rw [runQueue_cons_none hs, ih]
      have : reschedTo t k (u :: rest) = reschedTo t k rest := by
        simp [reschedTo, List.filterMap_cons, hs]
      rw [this]
    | some kv =>
      rw [runQueue_cons_some hs, ih]
      by_cases hk : kv.1 = k
      · subst hk
        rw [findQ_sd_same]
        have : reschedTo t kv.1 (u :: rest) = kv.2 :: reschedTo t kv.1 rest := by
          simp [reschedTo, List.filterMap_cons, hs]
        rw [this, List.append_assoc]
        rfl
      · rw [findQ_sd_ne m kv.2 hk]
        have : reschedTo t k (u :: rest) = reschedTo t k rest := by
          simp [reschedTo, List.filterMap_cons, hs, hk]
        rw [this]

/-- No pass ever emits the line-84 "Invalid element" warning. -/
theorem rq_diags {t : Nat} {q : List Update} {m : TickMap} {d : Diag}
    (h : d ∈ (runQueue t q m).ds) : d.isInvElem = false := by
  induction q generalizing m with
  | nil => simp [runQueue] at h
  | cons u rest ih =>
    have hsplit : ∀ m1 : TickMap,
        d ∈ (processUpdate t u).diag.toList ++ (runQueue t rest m1).ds →
        d.isInvElem = false := by
      intro m1 hm
      rcases List.mem_append.mp hm with hm | hm
      · cases hd : (processUpdate t u).diag with
        | none => rw [hd] at hm; cases hm
        | some d' =>
          rw [hd] at hm
          simp at hm
          exact hm ▸ processUpdate_diag_ok hd
      · exact ih hm
    cases hs : (processUpdate t u).sched with
    | none => rw [runQueue_cons_none hs] at h; exact hsplit m h
    | some kv =>
      rw [runQueue_cons_some hs] at h
      exact hsplit (setdefaultAppend m kv.1 kv.2) h

/-! ### Loop-level lemmas -/

/-- Fuel one greater than the total tail length always suffices: the
loop never runs out of fuel, i.e. it terminates for every input. -/
theorem loop_no_fuelOut : ∀ (fuel : Nat) (m : TickMap), mapLen m < fuel →
    (loop fuel m).isFuelOutL = false := by
  intro fuel
  induction fuel with
  | zero => intro m h; omega
  | succ f ih =>
    intro m h
    cases hmk : minKey m with
    | none => simp [loop, hmk, LoopOut.isFuelOutL]
    | some t =>
      have hm : mapLen (runQueue t (findQ m t) (eraseAll m t)).map +
          cond (runQueue t (findQ m t) (eraseAll m t)).more 1 0 ≤ mapLen m := by
        have h1 := rq_measure t (findQ m t) (eraseAll m t)
        have h2 := mapLen_erase_find (minKey_mem hmk)
        omega
      cases hmore : (runQueue t (findQ m t) (eraseAll m t)).more with
      | false => simp [loop, hmk, hmore, LoopOut.isFuelOutL]
      | true =>
        rw [hmore] at hm
        have hlt : mapLen (runQueue t (findQ m t) (eraseAll m t)).map < f := by
          simp at hm; omega
        have hrec := ih _ hlt
        cases hl : loop f (runQueue t (findQ m t) (eraseAll m t)).map with
        | ok m2 ds2 => simp [loop, hmk, hmore, hl, LoopOut.isFuelOutL]
        | crash ds2 => simp [loop, hmk, hmore, hl, LoopOut.isFuelOutL]
        | fuelOut ds2 => rw [hl] at hrec; simp [LoopOut.isFuelOutL] at hrec

/-- Starting from a non-empty tick map the loop never hits the
`min()`-on-empty-dict crash: whenever `more_to_process` is set, the
rescheduled update keeps the map non-empty. -/
theorem loop_no_crash : ∀ (fuel : Nat) (m : TickMap), m ≠ [] →
    (loop fuel m).isCrashL = false := by
  intro fuel
  induction fuel with
  | zero => intro m h; rfl
  | succ f ih =>
    intro m h
    obtain ⟨t, hmk⟩ := minKey_isSome h
    cases hmore : (runQueue t (findQ m t) (eraseAll m t)).more with
    | false => simp [loop, hmk, hmore, LoopOut.isCrashL]
    | true =>
      have hne := rq_more_ne_nil hmore
      have hrec := ih _ hne
      cases hl : loop f (runQueue t (findQ m t) (eraseAll m t)).map with
      | ok m2 ds2 => simp [loop, hmk, hmore, hl, LoopOut.isCrashL]
      | crash ds2 => rw [hl] at hrec; simp [LoopOut.isCrashL] at hrec
      | fuelOut ds2 => simp [loop, hmk, hmore, hl, LoopOut.isCrashL]

/-- The loop never emits the line-84 "Invalid element" warning. -/
theorem loop_diags : ∀ (fuel : Nat) (m : TickMap) (d : Diag),
    d ∈ (loop fuel m).dsL → d.isInvElem = false := by
  intro fuel
  induction fuel with
  | zero => intro m d h; simp [loop, LoopOut.dsL] at h
  | succ f ih =>
    intro m d h
    cases hmk : minKey m with
    | none => simp [loop, hmk, LoopOut.dsL] at h
    | some t =>
      cases hmore : (runQueue t (findQ m t) (eraseAll m t)).more with
      | false =>
        simp [loop, hmk, hmore, LoopOut.dsL] at h
        exact rq_diags h
      | true =>
        cases hl : loop f (runQueue t (findQ m t) (eraseAll m t)).map with
        | ok m2 ds2 =>
          simp [loop, hmk, hmore, hl, LoopOut.dsL] at h
          rcases h with h | h
          · exact rq_diags h
          · exact ih _ d (by rw [hl]; exact h)
        | crash ds2 =>
          simp [loop, hmk, hmore, hl, LoopOut.dsL] at h
          rcases h with h | h
          · exact rq_diags h
          · exact ih _ d (by rw [hl]; exact h)
        | fuelOut ds2 =>
          simp [loop, hmk, hmore, hl, LoopOut.dsL] at h
          rcases h with h | h
          · exact rq_diags h
          · exact ih _ d (by rw [hl]; exact h)

/-! ### Seeding lemmas -/

/-- Folding appends at tick 0 over a seeded singleton dict. -/
theorem initMap_foldl (ups : List Update) : ∀ q : List Update,
    ups.foldl (fun m u => setdefaultAppend m 0 u) [(0, q)] = [(0, q ++ ups)] := by
  induction ups with
  | nil => intro q; simp
  | cons u rest ih =>
    intro q
    have hstep : setdefaultAppend [(0, q)] 0 u = [(0, q ++ [u])] := by
      simp [setdefaultAppend]
    simp only [List.foldl_cons, hstep, ih]
    simp

/-- The seeded tick map is a single tick-0 entry holding every line in
input order. -/
theorem initMap_eq (ups : List Update) :
    initMap ups = if ups.isEmpty then [] else [(0, ups)] := by
  cases ups with
  | nil => rfl
  | cons u rest =>
    have hstep : setdefaultAppend [] 0 u = [(0, [u])] := rfl
    simp only [initMap, List.foldl_cons, hstep, initMap_foldl]
    simp

/-- The tick-0 queue of the seeded map is exactly the input order. -/
theorem findQ_init (q0 : List Update) : findQ (initMap q0) 0 = q0 := by
  cases q0 with
  | nil => rfl
  | cons u rest => rw [initMap_eq]; simp [findQ]

/-- One name per line. -/
theorem withNames_length (ls : List (List Char)) :
    (withNames ls).length = ls.length := by
  simp [withNames]

/-! ### Sorting and terminal-accounting lemmas -/

/-- Members of an insertion are the inserted entry or old members. -/
theorem mem_insertSorted {e f : Nat × List Update} {l : List (Nat × List Update)}
    (h : f ∈ insertSorted e l) : f = e ∨ f ∈ l := by
  induction l with
  | nil =>
    simp [insertSorted] at h
    exact Or.inl h
  | cons g rest ih =>
    rw [insertSorted] at h
    by_cases hle : e.1 ≤ g.1
    · rw [if_pos hle] at h
      rcases List.mem_cons.mp h with h | h
      · exact Or.inl h
      · exact Or.inr h
    · rw [if_neg hle] at h
      rcases List.mem_cons.mp h with h | h
      · exact Or.inr (h ▸ List.mem_cons_self _ _)
      · rcases ih h with h' | h'
        · exact Or.inl h'
        · exact Or.inr (List.mem_cons_of_mem _ h')

/-- Insertion preserves sortedness by tick key. -/
theorem pairwise_insertSorted {e : Nat × List Update} {l : List (Nat × List Update)}
    (h : List.Pairwise (fun a b => a.1 ≤ b.1) l) :
    List.Pairwise (fun a b => a.1 ≤ b.1) (insertSorted e l) := by
  induction l with
  | nil => simp [insertSorted]
  | cons g rest ih =>
    rw [List.pairwise_cons] at h
    obtain ⟨hg, hrest⟩ := h
    rw [insertSorted]
    by_cases hle : e.1 ≤ g.1
    · rw [if_pos hle]
      refine List.Pairwise.cons ?_ (List.Pairwise.cons hg hrest)
      intro x hx
      rcases List.mem_cons.mp hx with hx | hx
      · exact hx ▸ hle
      · exact le_trans hle (hg x hx)
    · rw [if_neg hle]
      refine List.Pairwise.cons ?_ (ih hrest)
      intro x hx
      rcases mem_insertSorted hx with hx | hx
      · exact hx ▸ Nat.le_of_not_le hle
      · exact hg x hx

/-- Insertion is a permutation of consing. -/
theorem insertSorted_perm (e : Nat × List Update) (l : List (Nat × List Update)) :
    List.Perm (insertSorted e l) (e :: l) := by
  induction l with
  | nil => rfl
  | cons g rest ih =>
    rw [insertSorted]
    by_cases hle : e.1 ≤ g.1
    · rw [if_pos hle]
    · rw [if_neg hle]
      exact (ih.cons g).trans (List.Perm.swap e g rest)

/-- Unfolding lemma for `sortEntries` on a cons. -/
theorem sortEntries_cons (e : Nat × List Update) (rest : TickMap) :
    sortEntries (e :: rest) = insertSorted e (sortEntries rest) := rfl

/-- The sorted entry list is sorted by ascending tick key. -/
theorem sortEntries_pairwise (m : TickMap) :
    List.Pairwise (fun a b => a.1 ≤ b.1) (sortEntries m) := by
  induction m with
  | nil => simp [sortEntries]
  | cons e rest ih => rw [sortEntries_cons]; exact pairwise_insertSorted ih

/-- The sorted entry list is a permutation of the dict's entries. -/
theorem sortEntries_perm (m : TickMap) : List.Perm (sortEntries m) m := by
  induction m with
  | nil => rfl
  | cons e rest ih =>
    rw [sortEntries_cons]
    exact (insertSorted_perm e (sortEntries rest)).trans (ih.cons e)

/-- The line-90 test is false exactly when the final queue covers every
line with an empty tail. -/
theorem final_cond_iff (n : Nat) (fu : List Update) :
    (fu.length != n || fu.any (fun u => !u.2.isEmpty)) = false ↔
      (fu.length = n ∧ ∀ u ∈ fu, u.2 = []) := by
  rw [Bool.or_eq_false_iff]
  constructor
  · rintro ⟨h1, h2⟩
    rw [bne_eq_false_iff_eq] at h1
    refine ⟨h1, fun u hu => ?_⟩
    rw [List.any_eq_false] at h2
    have := h2 u hu
    simp at this
    exact this
  · rintro ⟨h1, h2⟩
    refine ⟨by rw [bne_eq_false_iff_eq]; exact h1, ?_⟩
    rw [List.any_eq_false]
    intro u hu
    simp [h2 u hu]

/-- The malformed branch of the terminal accounting. -/
theorem finalize_malformed {n : Nat} {m : TickMap}
    (h : ((findQ m ((maxKey m).getD 0)).length != n ||
      (findQ m ((maxKey m).getD 0)).any (fun u => !u.2.isEmpty)) = true) :
    finalize n m = (none, Diag.warnFinal :: dumpOf m) := by
  unfold finalize
  rw [if_pos h]

/-- The completed branch of the terminal accounting. -/
theorem finalize_completed {n : Nat} {m : TickMap}
    (h : ((findQ m ((maxKey m).getD 0)).length != n ||
      (findQ m ((maxKey m).getD 0)).any (fun u => !u.2.isEmpty)) = false) :
    finalize n m =
      (some (joinNames ((findQ m ((maxKey m).getD 0)).map Prod.fst)), []) := by
  unfold finalize
  rw [if_neg (by rw [h]; exact Bool.false_ne_true)]

/-- The terminal accounting never emits the line-84 warning. -/
theorem finalize_diags {n : Nat} {m : TickMap} {d : Diag}
    (h : d ∈ (finalize n m).2) : d.isInvElem = false := by
  by_cases hc : ((findQ m ((maxKey m).getD 0)).length != n ||
      (findQ m ((maxKey m).getD 0)).any (fun u => !u.2.isEmpty)) = true
  · rw [finalize_malformed hc] at h
    rcases List.mem_cons.mp h with h | h
    · rw [h]; rfl
    · simp [dumpOf] at h
      obtain ⟨a, b, _, hd⟩ := h
      rw [← hd]; rfl
  · rw [finalize_completed (Bool.not_eq_true _ ▸ hc)] at h
    cases h

example : run [String.toList "C", String.toList "C"] =
    .ok (some (String.toList "A,B")) [] [(2, [('A', []), ('B', [])])] := by decide

/-- Claim C1: the element recognizer does NOT accept the two-character
token `R0` at the front of a tail: the regex as written, `^(R[0-3]]|C)`,
demands a literal `]` after the delay digit, so `R0C` fails to match at
all, while `R0]x` matches consuming three characters, not two.  This
refutes the claim that every string beginning with `R0`..`R3` matches
with exactly those two characters consumed. -/
theorem c1_recognizer_requires_bracket :
    matchElement (String.toList "R0C") = none ∧
    matchElement (String.toList "R0") = none ∧
    matchElement (String.toList "R0]x") = some (String.toList "R0]") ∧
    (String.toList "R0]").length = 3 ∧
    matchElement (String.toList "C") = some ['C'] := by decide

/-- Claim C2: on input `["R0C", "R0C"]` the run does NOT complete with
output `A,B`: both tails fail the element regex at tick 0 (because of
the stray `]` in the pattern), both updates are dropped with warnings,
the tick map drains empty, and the final accounting (0 updates against
2 lines) ends Malformed with no primary output. -/
theorem c2_scenario3_malformed :
    run [String.toList "R0C", String.toList "R0C"] =
      .ok none
        [Diag.warnInvalidToken 'A' 0 (String.toList "R0C"),
         Diag.warnInvalidToken 'B' 0 (String.toList "R0C"),
         Diag.warnFinal]
        [] := by decide

/-- Claim C3 (counterexample): on an input with zero non-empty lines the
tick map is never seeded, the loop body still runs once (the
`more_to_process` flag starts `True`), and `min(tick_map.keys())` on
the empty dict raises an uncaught `ValueError`: the run aborts before
any output. -/
theorem c3_empty_input_crashes : run [] = RunResult.crash [] := by decide

/-- Claim C5 (failing input): lines `CR3]` and `R1]R2]` each reach an
empty remainder at tick 10 when simulated independently, yet the run is
Malformed with no primary output: after the iteration at tick 2
produces only an empty remainder, `more_to_process` stays `False` and
the loop exits, stranding line B's unfinished update at tick 4. -/
theorem c5_early_exit_strands_line :
    simTick (String.toList "CR3]") = some 10 ∧
    simTick (String.toList "R1]R2]") = some 10 ∧
    run [String.toList "CR3]", String.toList "R1]R2]"] =
      .ok none
        [Diag.warnFinal,
         Diag.dumpEntry 4 [('B', String.toList "R2]")],
         Diag.dumpEntry 10 [('A', [])]]
        [(4, [('B', String.toList "R2]")]), (10, [('A', [])])] := by decide

/-- Claim C9: on input `["X"]` a warning identifying line `A` and tick 0
is emitted, the update is dropped without rescheduling, the loop ends
with an empty tick map, the final accounting finds 0 updates against 1
line, and the run ends Malformed: diagnostic dump of the empty map and
no primary output. -/
theorem c9_invalid_token_dropped :
    run [String.toList "X"] =
      .ok none [Diag.warnInvalidToken 'A' 0 ['X'], Diag.warnFinal] [] ∧
    findQ ([] : TickMap) 0 = [] ∧ numLines [String.toList "X"] = 1 := by decide

/-- Claim C3 (amended): for every input with at least one non-blank
line, the process runs to completion — the loop neither crashes nor
exhausts its fuel, and the run performs the final accounting, producing
either the primary result or the diagnostic dump. -/
theorem c3_nonblank_completes (input : List (List Char))
    (h : 0 < numLines input) : (run input).isOk = true := by
  have hwne : withNames (linesOf input) ≠ [] := by
    intro he
    have hlen := withNames_length (linesOf input)
    rw [he] at hlen
    unfold numLines at h
    simp at hlen
    omega
  have hm0 : m0Of input ≠ [] := by
    unfold m0Of
    rw [initMap_eq]
    cases hw : withNames (linesOf input) with
    | nil => exact absurd hw hwne
    | cons a b => simp
  have hnf := loop_no_fuelOut (fuelFor (m0Of input)) (m0Of input)
    (by unfold fuelFor; omega)
  have hnc := loop_no_crash (fuelFor (m0Of input)) (m0Of input) hm0
  cases hl : loop (fuelFor (m0Of input)) (m0Of input) with
  | ok m ds => simp [run, hl, RunResult.isOk]
  | crash ds => rw [hl] at hnc; simp [LoopOut.isCrashL] at hnc
  | fuelOut ds => rw [hl] at hnf; simp [LoopOut.isFuelOutL] at hnf

/-- Witness for C3's amended claim at the concrete input `["C"]`. -/
theorem c3_nonblank_completes_witness :
    0 < numLines [String.toList "C"] ∧
    (run [String.toList "C"]).isOk = true :=
  ⟨by decide, c3_nonblank_completes [String.toList "C"] (by decide)⟩

/-- Claim C4: whenever the loop ends (the run reaches the terminal
accounting), the primary output is produced if and only if the queue at
the maximum surviving tick covers every input line with an empty tail;
otherwise the primary channel stays silent and the diagnostics end with
the dump of the surviving tick map sorted by ascending tick (a sorted
permutation of the map's entries). -/
theorem c4_terminal_accounting (input : List (List Char)) (pr : Option (List Char))
    (ds : List Diag) (m : TickMap) (h : run input = RunResult.ok pr ds m) :
    (pr ≠ none ↔ ((findQ m ((maxKey m).getD 0)).length = numLines input ∧
      ∀ u ∈ findQ m ((maxKey m).getD 0), u.2 = [])) ∧
    (pr = none →
      (∃ ds0, ds = ds0 ++ Diag.warnFinal :: dumpOf m) ∧
      List.Pairwise (fun a b => a.1 ≤ b.1) (sortEntries m) ∧
      List.Perm (sortEntries m) m) := by
  cases hl : loop (fuelFor (m0Of input)) (m0Of input) with
  | crash ds2 => rw [run, hl] at h; cases h
  | fuelOut ds2 => rw [run, hl] at h; cases h
  | ok m2 ds2 =>
    rw [run, hl] at h
    simp only [RunResult.ok.injEq] at h
    obtain ⟨hpr, hds, hm⟩ := h
    subst hm
    by_cases hc : ((findQ m2 ((maxKey m2).getD 0)).length != (linesOf input).length ||
        (findQ m2 ((maxKey m2).getD 0)).any (fun u => !u.2.isEmpty)) = true
    · rw [finalize_malformed hc] at hpr hds
      constructor
      · rw [← hpr]
        simp only [ne_eq, not_true_eq_false, false_iff]
        intro hcontra
        have := (final_cond_iff (linesOf input).length
          (findQ m2 ((maxKey m2).getD 0))).mpr ⟨hcontra.1, hcontra.2⟩
        rw [hc] at this
        cases this
      · intro _
        exact ⟨⟨ds2, hds.symm⟩, sortEntries_pairwise m2, sortEntries_perm m2⟩
    · have hc' : ((findQ m2 ((maxKey m2).getD 0)).length != (linesOf input).length ||
          (findQ m2 ((maxKey m2).getD 0)).any (fun u => !u.2.isEmpty)) = false := by
        cases hb : ((findQ m2 ((maxKey m2).getD 0)).length != (linesOf input).length ||
            (findQ m2 ((maxKey m2).getD 0)).any (fun u => !u.2.isEmpty))
        · rfl
        · exact absurd hb hc
      rw [finalize_completed hc'] at hpr hds
      constructor
      · rw [← hpr]
        simp only [ne_eq, reduceCtorEq, not_false_eq_true, true_iff]
        exact (final_cond_iff (linesOf input).length
          (findQ m2 ((maxKey m2).getD 0))).mp hc'
      · intro hnone
        rw [← hpr] at hnone
        cases hnone

/-- Witness for C4 at the concrete malformed input `["X"]`. -/
theorem c4_terminal_accounting_witness :
    ((none : Option (List Char)) ≠ none ↔
      ((findQ ([] : TickMap) ((maxKey ([] : TickMap)).getD 0)).length =
          numLines [String.toList "X"] ∧
        ∀ u ∈ findQ ([] : TickMap) ((maxKey ([] : TickMap)).getD 0), u.2 = [])) ∧
    ((none : Option (List Char)) = none →
      (∃ ds0, [Diag.warnInvalidToken 'A' 0 ['X'], Diag.warnFinal] =
        ds0 ++ Diag.warnFinal :: dumpOf ([] : TickMap)) ∧
      List.Pairwise (fun a b => a.1 ≤ b.1) (sortEntries ([] : TickMap)) ∧
      List.Perm (sortEntries ([] : TickMap)) ([] : TickMap)) :=
  c4_terminal_accounting [String.toList "X"] none
    [Diag.warnInvalidToken 'A' 0 ['X'], Diag.warnFinal] [] (by decide)

/-- Claim C6: no input makes the scheduler loop run forever — fuel one
greater than the total number of unconsumed characters always suffices,
because each consumed element reschedules its line strictly later, so a
run never ends in fuel exhaustion. -/
theorem c6_loop_terminates (input : List (List Char)) :
    (run input).isFuelOut = false := by
  have h := loop_no_fuelOut (fuelFor (m0Of input)) (m0Of input)
    (by unfold fuelFor; omega)
  cases hl : loop (fuelFor (m0Of input)) (m0Of input) with
  | ok m ds => simp [run, hl, RunResult.isFuelOut]
  | crash ds => simp [run, hl, RunResult.isFuelOut]
  | fuelOut ds => rw [hl] at h; simp [LoopOut.isFuelOutL] at h

/-- Claim C7: at the start of an iteration every key is at least the
current (minimum) tick; after the iteration every key is strictly
beyond it — surviving keys were already present, and fresh keys sit at
current tick plus 2, 4, 6 or 8 — so the next selected tick is strictly
larger, making the processed-tick sequence monotone. -/
theorem c7_tick_monotonicity (m : TickMap) (t : Nat) (h : minKey m = some t) :
    (∀ k ∈ keysOf m, t ≤ k) ∧
    (∀ k ∈ keysOf (stepMap m t), t < k ∧
      (k ∈ keysOf m ∨ k = t + 2 ∨ k = t + 4 ∨ k = t + 6 ∨ k = t + 8)) ∧
    (∀ t', minKey (stepMap m t) = some t' → t < t') := by
  have hlb := minKey_le h
  have hpart2 : ∀ k ∈ keysOf (stepMap m t), t < k ∧
      (k ∈ keysOf m ∨ k = t + 2 ∨ k = t + 4 ∨ k = t + 6 ∨ k = t + 8) := by
    intro k hk
    rcases rq_keys hk with hk' | hk'
    · obtain ⟨h1, h2⟩ := keysOf_erase hk'
      have := hlb k h1
      exact ⟨lt_of_le_of_ne this (Ne.symm h2), Or.inl h1⟩
    · refine ⟨?_, Or.inr hk'⟩
      rcases hk' with h' | h' | h' | h' <;> omega
  refine ⟨hlb, hpart2, fun t' ht' => (hpart2 t' (minKey_mem ht')).1⟩

/-- Witness for C7 at a concrete one-entry tick map. -/
theorem c7_tick_monotonicity_witness :
    (∀ k ∈ keysOf [(0, [('A', ['C'])])], 0 ≤ k) ∧
    (∀ k ∈ keysOf (stepMap [(0, [('A', ['C'])])] 0), 0 < k ∧
      (k ∈ keysOf [(0, [('A', ['C'])])] ∨
        k = 0 + 2 ∨ k = 0 + 4 ∨ k = 0 + 6 ∨ k = 0 + 8)) ∧
    (∀ t', minKey (stepMap [(0, [('A', ['C'])])] 0) = some t' → 0 < t') :=
  c7_tick_monotonicity [(0, [('A', ['C'])])] 0 (by decide)

/-- Claim C8: processing a popped queue appends each rescheduled update
to the end of the destination tick's queue, so the queue at any key `k`
afterwards is its previous content followed by exactly the updates
rescheduled to `k`, in processing order — never reordered by identifier
or delay; and the tick-0 queue is seeded in input order. -/
theorem c8_tie_preserving_merge (t k : Nat) (q q0 : List Update) (m : TickMap) :
    findQ (runQueue t q m).map k = findQ m k ++ reschedTo t k q ∧
    findQ (initMap q0) 0 = q0 :=
  ⟨rq_findQ t q m k, findQ_init q0⟩

/-- Claim C10: for every input, the line-84 `else` branch of the element
dispatch is dead code — no run ever emits its "Invalid element"
warning, because every string the recognizer accepts starts with `R`
or `C`. -/
theorem c10_else_branch_unreachable (input : List (List Char)) :
    (diagsOf (run input)).all (fun d => !d.isInvElem) = true := by
  rw [List.all_eq_true]
  intro d hd
  suffices hfalse : d.isInvElem = false by simp [hfalse]
  cases hl : loop (fuelFor (m0Of input)) (m0Of input) with
  | ok m ds =>
    simp only [run, hl, diagsOf] at hd
    rcases List.mem_append.mp hd with hd | hd
    · exact loop_diags _ _ d (by rw [hl]; exact hd)
    · exact finalize_diags hd
  | crash ds =>
    simp only [run, hl, diagsOf] at hd
    exact loop_diags _ _ d (by rw [hl]; exact hd)
  | fuelOut ds =>
    simp only [run, hl, diagsOf] at hd
    exact loop_diags _ _ d (by rw [hl]; exact hd)

end WirelessRedstone
